import Mathlib

/-!
Verification of the scheduling core of the mcp-outlook repository.

Shallow embedding conventions, chosen once and used throughout:

* Instants are modeled as integers counting milliseconds since the Unix
  epoch (the value of Date.getTime in the source).  ISO strings at the
  module boundaries denote instants; parsing and formatting functions of
  the source (parseISOToUTC, normalizeISOString, convertUTCToTimezone
  composed with reparsing) preserve the instant, so the model identifies
  a timestamp string with its instant.
* JavaScript floor-style integer division (the effect of Math.round via
  floor(x + 1/2), and of reading date components) is modeled with Int
  division; all divisors used by the source are positive, where Int
  division agrees with mathematical floor division.
* The confidence score, a JavaScript number, is modeled as a rational.
* Array.prototype.sort with a comparator cmp is modeled as the stable
  insertion sort List.insertionSort with the relation fun a b => cmp a b
  is nonpositive; ECMAScript requires sort to be stable, and for the
  comparators of the source this relation is total.  For the ranking
  comparator of intersect.ts the relation is not transitive, so the
  output order is only pinned down up to the choice of stable algorithm;
  results below that depend on the order of the ranked output hold for
  this fixed model.
* The process-local timezone of the Node runtime is assumed to have a
  whole-hour UTC offset, so that the minute-of-hour component read by
  roundToInterval agrees with the UTC minute-of-hour.
* Named timezones are modeled by their UTC offset in minutes at the
  instants involved.

The embedded code is the current state of the repository: intersect.ts
(the revision with the dedicated single-participant branch and the
greater-or-equal duration test), availability.ts (the revision whose
constructor receives the GraphClientFactory, as required by find.ts),
find.ts, and utils/time.ts.  Network calls of availability.ts and
find.ts are modeled by oracle functions supplied as parameters.
-/

set_option allowUnsafeReducibility true
attribute [local semireducible] Rat.add Rat.sub Rat.mul Rat.div Rat.neg Rat.inv
set_option maxRecDepth 40000

/-- Attendee availability status used in CandidateSlot. -/
inductive AvStatus where
  | free
  | tentative
  | busy
deriving DecidableEq, Repr

/-- TimeInterval of utils/time.ts: a half-open interval of instants.
The field named end in the source is called stop here because end is a
Lean keyword. -/
structure TimeInterval where
  start : Int
  stop : Int
deriving DecidableEq, Repr

/-- One raw schedule item as returned by the calendar provider: a start
and end instant plus the provider status string (busy, tentative, free,
and possibly others such as oof). -/
structure ScheduleItem where
  start : Int
  stop : Int
  availability : String
deriving DecidableEq, Repr

/-- WorkingHours of utils/time.ts.  The HH:MM clock strings are modeled
as minutes of the day; since the strings are fixed-width zero-padded,
the lexicographic string comparison of the source coincides with the
numeric comparison of minutes of the day.  days lists day-of-week
numbers, 0 = Sunday. -/
structure WorkingHours where
  startMin : Int
  stopMin : Int
  days : List Int
deriving DecidableEq, Repr

/-- CandidateSlot of intersect.ts.  attendeeAvailability is the
JavaScript object written as a list of key-value pairs in insertion
order; assignment to an existing key updates the value in place. -/
structure CandidateSlot where
  start : Int
  stop : Int
  attendeeAvailability : List (String × AvStatus)
  confidence : ℚ
deriving DecidableEq, Repr

/-- The fields of ProposeMeetingTimesInput consumed by the intersection
engine.  maxCandidates is a validated positive count (schema bounds 1
to 20), hence a natural number. -/
structure ProposeInput where
  durationMinutes : Int
  maxCandidates : Nat
  bufferBeforeMinutes : Int
  bufferAfterMinutes : Int
  minRequiredAttendees : Option Nat
deriving DecidableEq, Repr

/-- Per-user input of findIntersectingSlots: email plus free and busy
interval lists. -/
structure UserFreeBusy where
  email : String
  free : List TimeInterval
  busy : List TimeInterval
deriving DecidableEq, Repr

/-- UserAvailability of availability.ts. -/
structure UserAvailability where
  email : String
  workingHours : Option WorkingHours
  busy : List TimeInterval
  free : List TimeInterval
deriving DecidableEq, Repr

/-- getDurationMinutes of utils/time.ts: Math.round of the millisecond
difference divided by 60000.  Math.round x equals floor (x + 1/2), and
Int division by the positive constant 60000 is floor division. -/
def getDurationMinutes (start stop : Int) : Int :=
  (stop - start + 30000) / 60000

/-- intervalsOverlap of utils/time.ts. -/
def intervalsOverlap (a b : TimeInterval) : Bool :=
  decide (a.start < b.stop) && decide (b.start < a.stop)

/-- intersectIntervals of utils/time.ts. -/
def intersectIntervals (a b : TimeInterval) : Option TimeInterval :=
  if intervalsOverlap a b then
    some ⟨max a.start b.start, min a.stop b.stop⟩
  else
    none

/-- roundToInterval of utils/time.ts: read the minute component of the
date, round it to the nearest multiple of intervalMinutes, write it
back and zero the seconds and milliseconds.  With a whole-hour-offset
process timezone the minute component is the UTC minute of the hour. -/
def roundToInterval (t : Int) (intervalMinutes : Int) : Int :=
  let totalMin := t / 60000
  let m := totalMin % 60
  let hourBase := totalMin - m
  let rounded := intervalMinutes * ((2 * m + intervalMinutes) / (2 * intervalMinutes))
  60000 * (hourBase + rounded)

/-- isWithinWorkingHours of utils/time.ts: convert the instant to the
zone-local time, require day-of-week membership and the inclusive
clock range check.  tzOffsetMin is the UTC offset of the zone in
minutes.  Day 0 of the epoch was a Thursday, hence the shift by 4. -/
def isWithinWorkingHours (t : Int) (wh : WorkingHours) (tzOffsetMin : Int) : Bool :=
  let localT := t + 60000 * tzOffsetMin
  let day := (localT / 86400000 + 4) % 7
  let minuteOfDay := (localT / 60000) % 1440
  wh.days.contains day && (decide (wh.startMin ≤ minuteOfDay) && decide (minuteOfDay ≤ wh.stopMin))

/-- clipToWorkingHours of utils/time.ts: despite the name it never
clips; it keeps the interval exactly when both endpoints pass
isWithinWorkingHours and otherwise returns null. -/
def clipToWorkingHours (iv : TimeInterval) (wh : WorkingHours) (tzOffsetMin : Int) : Option TimeInterval :=
  if isWithinWorkingHours iv.start wh tzOffsetMin && isWithinWorkingHours iv.stop wh tzOffsetMin then
    some iv
  else
    none

/-- findBestIntersection of intersect.ts: fold over the free intervals
of one user keeping the intersection with the largest overlap measured
in rounded minutes; an overlap must be strictly larger than the running
best (initially 0) to be adopted. -/
def findBestIntersection (target : TimeInterval) (userIntervals : List TimeInterval) : Option TimeInterval :=
  (userIntervals.foldl
    (fun acc uiv =>
      match intersectIntervals target uiv with
      | none => acc
      | some iv =>
        let overlap := getDurationMinutes iv.start iv.stop
        if overlap > acc.2 then (some iv, overlap) else acc)
    ((none : Option TimeInterval), (0 : Int))).1

/-- Assignment m[k] = v on a JavaScript object: update the value in
place when the key is present, otherwise append the pair. -/
def setStatus (m : List (String × AvStatus)) (k : String) (v : AvStatus) : List (String × AvStatus) :=
  if m.any (fun p => p.1 == k) then
    m.map (fun p => if p.1 == k then (k, v) else p)
  else
    m ++ [(k, v)]

/-- calculateConfidence of intersect.ts: weights free 1.0, tentative
0.5, busy 0.0, summed over the values of the availability object and
divided by the participant count; 0 when the count is 0. -/
def calculateConfidence (m : List (String × AvStatus)) (totalAttendees : Nat) : ℚ :=
  let freeCount := m.countP (fun p => p.2 == AvStatus.free)
  let tentativeCount := m.countP (fun p => p.2 == AvStatus.tentative)
  let busyCount := m.countP (fun p => p.2 == AvStatus.busy)
  let totalScore : ℚ := (freeCount : ℚ) * 1 + (tentativeCount : ℚ) * (1 / 2) + (busyCount : ℚ) * 0
  if totalAttendees > 0 then totalScore / (totalAttendees : ℚ) else 0

/-- Order induced by the start-time comparator used for the
single-participant candidate sort of intersect.ts. -/
def slotLE (a b : CandidateSlot) : Prop :=
  a.start ≤ b.start

instance : DecidableRel slotLE := fun a b => by
  unfold slotLE
  infer_instance

instance : IsTotal CandidateSlot slotLE :=
  ⟨fun a b => Int.le_total a.start b.start⟩

instance : IsTrans CandidateSlot slotLE :=
  ⟨fun _ _ _ hab hbc => Int.le_trans hab hbc⟩

/-- Order induced by the ranking comparator of intersect.ts: when the
confidences differ by more than 0.1 the higher confidence comes first,
otherwise the earlier start comes first.  a candidateLE b states that
the comparator value cmp a b is nonpositive. -/
def candidateLE (a b : CandidateSlot) : Prop :=
  if |a.confidence - b.confidence| > 1 / 10 then
    b.confidence ≤ a.confidence
  else
    a.start ≤ b.start

instance : DecidableRel candidateLE := fun a b => by
  unfold candidateLE
  infer_instance

/-- Candidates of the single-participant branch of
findIntersectingSlots, one per sufficiently long free interval, before
sorting and truncation. -/
def singleUserCandidates (inp : ProposeInput) (u : UserFreeBusy) : List CandidateSlot :=
  u.free.filterMap (fun slot =>
    let slotDuration := getDurationMinutes slot.start slot.stop
    if slotDuration ≥ inp.durationMinutes then
      if inp.bufferBeforeMinutes = 0 ∧ inp.bufferAfterMinutes = 0 then
        some ⟨slot.start, slot.stop, [(u.email, AvStatus.free)], 1⟩
      else
        let effectiveDuration := slotDuration - (inp.bufferBeforeMinutes + inp.bufferAfterMinutes)
        if effectiveDuration < inp.durationMinutes then
          none
        else
          let meetingStart := slot.start + 60000 * inp.bufferBeforeMinutes
          some ⟨meetingStart, meetingStart + 60000 * inp.durationMinutes, [(u.email, AvStatus.free)], 1⟩
    else
      none)

/-- The fold of the multi-participant branch across participants 1 to
N-1 for one seed interval of participant 0: the running common
interval, a flag recording whether any intersection replaced it (the
reference-inequality test commonInterval === interval of the source),
and the availability object. -/
def seedStep (acc : TimeInterval × Bool × List (String × AvStatus)) (u : UserFreeBusy) :
    TimeInterval × Bool × List (String × AvStatus) :=
  match findBestIntersection acc.1 u.free with
  | none => (acc.1, acc.2.1, setStatus acc.2.2 u.email AvStatus.busy)
  | some iv => (iv, true, setStatus acc.2.2 u.email AvStatus.free)

def foldSeed (firstEmail : String) (others : List UserFreeBusy) (seed : TimeInterval) :
    TimeInterval × Bool × List (String × AvStatus) :=
  others.foldl seedStep (seed, false, [(firstEmail, AvStatus.free)])

/-- One seed interval of the multi-participant branch: discard the seed
when no other participant intersected it at all, otherwise require the
common interval to hold the requested duration and apply buffers. -/
def seedCandidate (inp : ProposeInput) (n : Nat) (firstEmail : String)
    (others : List UserFreeBusy) (seed : TimeInterval) : Option CandidateSlot :=
  let r := foldSeed firstEmail others seed
  let common := r.1
  if ¬ r.2.1 then
    none
  else
    let intersectionDuration := getDurationMinutes common.start common.stop
    if intersectionDuration ≥ inp.durationMinutes then
      if inp.bufferBeforeMinutes = 0 ∧ inp.bufferAfterMinutes = 0 then
        some ⟨common.start, common.stop, r.2.2, calculateConfidence r.2.2 n⟩
      else
        let effectiveDuration := intersectionDuration - (inp.bufferBeforeMinutes + inp.bufferAfterMinutes)
        if effectiveDuration < inp.durationMinutes then
          none
        else
          let slotStart := common.start + 60000 * inp.bufferBeforeMinutes
          some ⟨slotStart, slotStart + 60000 * inp.durationMinutes, r.2.2, calculateConfidence r.2.2 n⟩
    else
      none

/-- findIntersectingSlots of intersect.ts.  A single user gets the
dedicated branch sorted by start time; two or more users run the seed
fold over the free list of the first user, rank by the banded
confidence comparator and truncate to maxCandidates. -/
def findIntersectingSlots (inp : ProposeInput) (users : List UserFreeBusy) : List CandidateSlot :=
  match users with
  | [] => []
  | [u] =>
    (List.insertionSort slotLE (singleUserCandidates inp u)).take inp.maxCandidates
  | first :: others =>
    if first.free.isEmpty then
      []
    else
      let cands := first.free.filterMap (seedCandidate inp (others.length + 1) first.email others)
      (List.insertionSort candidateLE cands).take inp.maxCandidates

/-- checkMinimumAttendance of intersect.ts; a missing or zero minimum
(both falsy in JavaScript) disables the requirement. -/
def checkMinimumAttendance (slot : CandidateSlot) (minRequiredAttendees : Option Nat) : Bool :=
  match minRequiredAttendees with
  | none => true
  | some 0 => true
  | some k =>
    decide (slot.attendeeAvailability.countP
      (fun p => p.2 == AvStatus.free || p.2 == AvStatus.tentative) ≥ k)

/-- filterByMinimumAttendance of intersect.ts. -/
def filterByMinimumAttendance (candidates : List CandidateSlot) (minRequiredAttendees : Option Nat) :
    List CandidateSlot :=
  match minRequiredAttendees with
  | none => candidates
  | some 0 => candidates
  | some k => candidates.filter (fun c => checkMinimumAttendance c (some k))

/-- Order induced by the schedule-item sort of processFreeBusy: both
the initial string sort (lexicographic on same-offset same-width ISO
strings, hence chronological) and the second sort by parsed start
instant order by the start field. -/
def itemLE (a b : ScheduleItem) : Prop :=
  a.start ≤ b.start

instance : DecidableRel itemLE := fun a b => by
  unfold itemLE
  infer_instance

instance : IsTotal ScheduleItem itemLE :=
  ⟨fun a b => Int.le_total a.start b.start⟩

instance : IsTrans ScheduleItem itemLE :=
  ⟨fun _ _ _ hab hbc => Int.le_trans hab hbc⟩

/-- The window-overlap test of processFreeBusy on one raw item. -/
def overlapsWindow (ws we : Int) (it : ScheduleItem) : Bool :=
  decide (it.start < we) && decide (it.stop > ws)

/-- The status test under which processFreeBusy records an item as a
busy period. -/
def isBusyStatus (s : String) : Bool :=
  s == "busy" || s == "tentative"

/-- Clipping of a recorded busy period to the window boundaries in
processFreeBusy. -/
def clipToWindow (ws we : Int) (it : ScheduleItem) : TimeInterval :=
  ⟨max it.start ws, min it.stop we⟩

/-- One rounded candidate free gap of processFreeBusy: kept when the
rounded start is strictly before the rounded end. -/
def maybeGap (g a b : Int) : List TimeInterval :=
  let x := roundToInterval a g
  let y := roundToInterval b g
  if x < y then [⟨x, y⟩] else []

/-- The free gap emitted before the first relevant busy period. -/
def preGap (g ws : Int) : List ScheduleItem → List TimeInterval
  | [] => []
  | first :: _ => if ws < first.start then maybeGap g ws first.start else []

/-- The free gaps emitted between consecutive relevant busy periods
(the index loop over pairs of neighbours in processFreeBusy). -/
def midGaps (g : Int) : List ScheduleItem → List TimeInterval
  | a :: b :: rest => (if a.stop < b.start then maybeGap g a.stop b.start else []) ++ midGaps g (b :: rest)
  | _ => []

/-- The free gap emitted after the last relevant busy period. -/
def lastGap (g we : Int) : List ScheduleItem → List TimeInterval
  | [] => []
  | [a] => if a.stop < we then maybeGap g a.stop we else []
  | _ :: rest => lastGap g we rest

/-- processFreeBusy of availability.ts (the current revision): sort the
raw items, filter to the ones overlapping the window while recording
the overlapping busy or tentative ones (clipped) as busy periods, then
emit free gaps from the window start, between neighbouring relevant
periods and up to the window end.  The whole window is free when no
item overlaps it.  The parameters workHoursOnly, workingHours and
tzOffsetMin are accepted and ignored, exactly as in the source, whose
processFreeBusy never reads them (clipToWorkingHours is imported there
but never called). -/
def processFreeBusy (freeBusy : List ScheduleItem) (ws we granularityMinutes : Int)
    (workHoursOnly : Bool) (workingHours : Option WorkingHours) (tzOffsetMin : Int) :
    List TimeInterval × List TimeInterval :=
  let _ := workHoursOnly
  let _ := workingHours
  let _ := tzOffsetMin
  let sorted := List.insertionSort itemLE freeBusy
  let relevant := sorted.filter (overlapsWindow ws we)
  let busy := (sorted.filter
    (fun it => overlapsWindow ws we it && isBusyStatus it.availability)).map (clipToWindow ws we)
  let free :=
    if relevant.isEmpty then
      [⟨ws, we⟩]
    else
      let sr := List.insertionSort itemLE relevant
      preGap granularityMinutes ws sr ++ midGaps granularityMinutes sr ++ lastGap granularityMinutes we sr
  (busy, free)

/-- The calendar provider as seen by availability.ts, modeled as
oracles: fetch is the combined outcome of getFreeBusy (including its
calendarView fallback and retries), and hours is getWorkingHours,
which never throws because it catches all errors and falls back to the
Monday-to-Friday 09:00-17:00 default. -/
structure Provider where
  fetch : String → Except Unit (List ScheduleItem)
  hours : String → WorkingHours

/-- getUserAvailability of availability.ts for one participant:
propagates a provider failure, otherwise processes the raw items. -/
def getUserAvailability (P : Provider) (email : String) (ws we granularityMinutes : Int)
    (workHoursOnly : Bool) (tzOffsetMin : Int) : Except Unit UserAvailability :=
  match P.fetch email with
  | Except.error e => Except.error e
  | Except.ok raw =>
    let wh := P.hours email
    let pr := processFreeBusy raw ws we granularityMinutes workHoursOnly (some wh) tzOffsetMin
    Except.ok ⟨email, some wh, pr.1, pr.2⟩

/-- getAvailability of availability.ts: one entry per participant in
order; a failure for one participant is caught locally and replaced by
the empty availability with null working hours. -/
def getAvailability (P : Provider) (participants : List String) (ws we granularityMinutes : Int)
    (workHoursOnly : Bool) (tzOffsetMin : Int) : List UserAvailability :=
  participants.map (fun email =>
    match getUserAvailability P email ws we granularityMinutes workHoursOnly tzOffsetMin with
    | Except.ok a => a
    | Except.error _ => ⟨email, none, [], []⟩)

/-- The source of a findMeetingTimes result. -/
inductive ResultSource where
  | graph_findMeetingTimes
  | local_intersection
deriving DecidableEq, Repr

/-- ProposeMeetingTimesOutput of find.ts. -/
structure ProposeOutput where
  source : ResultSource
  candidates : List CandidateSlot
deriving DecidableEq, Repr

/-- Projection used by findMeetingTimesLocal when passing the
normalized availability to the intersection engine. -/
def toUserFreeBusy (u : UserAvailability) : UserFreeBusy :=
  ⟨u.email, u.free, u.busy⟩

/-- findMeetingTimesLocal of find.ts: availability normalization with
the hardcoded granularity of 30 minutes, then intersection, then the
minimum-attendance filter, tagged local_intersection. -/
def findMeetingTimesLocal (P : Provider) (participants : List String) (inp : ProposeInput)
    (ws we : Int) (workHoursOnly : Bool) (tzOffsetMin : Int) : ProposeOutput :=
  let availability := getAvailability P participants ws we 30 workHoursOnly tzOffsetMin
  let candidates := findIntersectingSlots inp (availability.map toUserFreeBusy)
  ⟨ResultSource.local_intersection, filterByMinimumAttendance candidates inp.minRequiredAttendees⟩

/-- findMeetingTimes of find.ts.  native is the outcome of
tryGraphFindMeetingTimes, modeled after its mapping of the Graph
suggestions into CandidateSlot values: an error when the call threw,
otherwise the mapped suggestion list (empty when the call returned no
suggestions, in which case tryGraphFindMeetingTimes returns null).
A thrown error is caught and logged; in every non-native case the
local pipeline produces the result. -/
def findMeetingTimes (native : Except Unit (List CandidateSlot)) (P : Provider)
    (participants : List String) (inp : ProposeInput) (ws we : Int)
    (workHoursOnly : Bool) (tzOffsetMin : Int) : ProposeOutput :=
  match native with
  | Except.ok cs =>
    if cs.length > 0 then
      ⟨ResultSource.graph_findMeetingTimes, cs⟩
    else
      findMeetingTimesLocal P participants inp ws we workHoursOnly tzOffsetMin
  | Except.error _ =>
    findMeetingTimesLocal P participants inp ws we workHoursOnly tzOffsetMin

/-- Helper for concrete scenarios: the instant h hours and m minutes
into a reference day, in milliseconds. -/
def hm (h m : Int) : Int :=
  60000 * (60 * h + m)

/-- The ranking property asserted by the specification for a pair of
candidates A before B in the returned sequence: either the confidence
of A exceeds that of B by more than 0.1, or the confidences are within
0.1 of each other and A starts no later than B. -/
def rankedBefore (a b : CandidateSlot) : Prop :=
  a.confidence > b.confidence + 1 / 10 ∨
    (|a.confidence - b.confidence| ≤ 1 / 10 ∧ a.start ≤ b.start)

instance : DecidableRel rankedBefore := fun a b => by
  unfold rankedBefore
  infer_instance

/-- The monotonic-ranking claim for a returned sequence: rankedBefore
holds for every pair in order, not only adjacent ones. -/
def monotonicRanking (l : List CandidateSlot) : Prop :=
  l.Pairwise rankedBefore

instance : DecidablePred monotonicRanking := fun l => by
  unfold monotonicRanking
  infer_instance

/-- The instant t lies in the half-open interval. -/
def covers (t : Int) (iv : TimeInterval) : Bool :=
  decide (iv.start ≤ t) && decide (t < iv.stop)

/-- The instant t lies in the half-open span of the raw item. -/
def coversItem (t : Int) (it : ScheduleItem) : Bool :=
  decide (it.start ≤ t) && decide (t < it.stop)

/-- An instant is aligned to the granularity when it is a whole minute
whose minute of the hour is a multiple of the granularity; on such
instants roundToInterval is the identity. -/
def alignedTo (g t : Int) : Prop :=
  t % 60000 = 0 ∧ (t / 60000) % 60 % g = 0

instance : ∀ g t, Decidable (alignedTo g t) := fun g t => by
  unfold alignedTo
  infer_instance

/-- Wellformedness of one raw busy period for the partition statement:
contained in the window, nonempty, aligned endpoints, and a status the
source records as busy. -/
def wfItem (ws we g : Int) (it : ScheduleItem) : Prop :=
  ws ≤ it.start ∧ it.start < it.stop ∧ it.stop ≤ we ∧
    alignedTo g it.start ∧ alignedTo g it.stop ∧
    (it.availability = "busy" ∨ it.availability = "tentative")

instance : ∀ ws we g it, Decidable (wfItem ws we g it) := fun ws we g it => by
  unfold wfItem
  infer_instance

/-- Two raw busy periods with disjoint spans. -/
def disjointItems (a b : ScheduleItem) : Prop :=
  a.stop ≤ b.start ∨ b.stop ≤ a.start

instance : DecidableRel disjointItems := fun a b => by
  unfold disjointItems
  infer_instance

/-- Canonical free gaps left of a cursor walking a laid-out list of
busy periods up to the window end. -/
def gaps (we : Int) : Int → List ScheduleItem → List TimeInterval
  | cursor, [] => if cursor < we then [⟨cursor, we⟩] else []
  | cursor, it :: rest =>
    (if cursor < it.start then [⟨cursor, it.start⟩] else []) ++ gaps we it.stop rest

/-- A list of busy periods laid out left to right from the cursor:
each period starts no earlier than the cursor, is nonempty, and the
cursor advances to its end; the final cursor is at most the window
end. -/
def Laid (we : Int) : Int → List ScheduleItem → Prop
  | cursor, [] => cursor ≤ we
  | cursor, it :: rest => cursor ≤ it.start ∧ it.start < it.stop ∧ Laid we it.stop rest

/-- Concrete participants for the two-user scenarios of the
specification (scenarios 1 and 2). -/
def scenarioUsers : List UserFreeBusy :=
  [⟨"u1", [⟨hm 9 0, hm 12 0⟩, ⟨hm 14 0, hm 17 0⟩], []⟩,
   ⟨"u2", [⟨hm 10 0, hm 11 0⟩, ⟨hm 15 0, hm 16 0⟩], []⟩]

/-- Free hour 09:00 to 10:00 of the ranking counterexample. -/
def ivA : TimeInterval := ⟨hm 9 0, hm 10 0⟩

/-- Free hour 10:00 to 11:00 of the ranking counterexample. -/
def ivB : TimeInterval := ⟨hm 10 0, hm 11 0⟩

/-- Free hour 11:00 to 12:00 of the ranking counterexample. -/
def ivC : TimeInterval := ⟨hm 11 0, hm 12 0⟩

/-- Fifteen participants engineered so that the three candidates get
confidences 10/15, 11/15 and 12/15 with the lowest confidence starting
earliest: adjacent confidences differ by at most 0.1 while the extremes
differ by more, which makes the banded comparator cyclic. -/
def rankUsers : List UserFreeBusy :=
  ⟨"u0", [ivA, ivB, ivC], []⟩ ::
  (List.range 9).map (fun i => ⟨"v" ++ toString i, [ivA, ivB, ivC], []⟩) ++
  [⟨"w10", [ivB, ivC], []⟩, ⟨"w11", [ivC], []⟩,
   ⟨"x12", [], []⟩, ⟨"x13", [], []⟩, ⟨"x14", [], []⟩]

/-- Three participants with a duplicated email: the availability object
is keyed by email, so the later duplicate overwrites the entry of the
seed participant. -/
def dupUsers : List UserFreeBusy :=
  [⟨"a", [⟨0, 3600000⟩], []⟩, ⟨"b", [⟨0, 3600000⟩], []⟩, ⟨"a", [], []⟩]

/-- A propose input with duration 30, no buffers, five candidates. -/
def plainInput : ProposeInput := ⟨30, 5, 0, 0, none⟩

/-- The default working hours of getWorkingHours: Monday to Friday,
09:00 (minute 540) to 17:00 (minute 1020). -/
def defaultWorkingHours : WorkingHours := ⟨540, 1020, [1, 2, 3, 4, 5]⟩

/-- Sunday 1970-01-04 at 10:00 UTC. -/
def sundayTen : Int := 259200000 + hm 10 0

/-- Sunday 1970-01-04 at 11:00 UTC. -/
def sundayEleven : Int := 259200000 + hm 11 0

/-- A provider that fails for the participant u.bad and returns an
empty schedule for everyone else. -/
def sampleProvider : Provider :=
  ⟨fun email => if email = "u.bad" then Except.error () else Except.ok [],
   fun _ => defaultWorkingHours⟩

/-- A provider that succeeds for every participant with an empty
schedule; it agrees with sampleProvider away from u.bad. -/
def okProvider : Provider :=
  ⟨fun _ => Except.ok [], fun _ => defaultWorkingHours⟩

/-- Inserting into a chain of a total relation preserves the chain,
with no transitivity assumption: this is what stable insertion sort
guarantees for adjacent output pairs even for the non-transitive
banded comparator. -/
theorem chain'_orderedInsert {α : Type} {r : α → α → Prop} [DecidableRel r]
    (tot : ∀ a b, r a b ∨ r b a) (x : α) :
    ∀ l : List α, List.Chain' r l → List.Chain' r (l.orderedInsert r x)
  | [], _ => by simp [List.orderedInsert]
  | b :: t, h => by
    by_cases hxb : r x b
    · rw [List.orderedInsert, if_pos hxb]
      exact List.chain'_cons.2 ⟨hxb, h⟩
    · rw [List.orderedInsert, if_neg hxb]
      refine List.chain'_cons'.2 ⟨?_, chain'_orderedInsert tot x t (List.chain'_cons'.1 h).2⟩
      intro y hy
      cases t with
      | nil =>
        simp only [List.orderedInsert, List.head?, Option.mem_def, Option.some.injEq] at hy
        subst hy
        exact (tot x b).resolve_left hxb
      | cons c t2 =>
        rw [List.orderedInsert] at hy
        by_cases hxc : r x c
        · rw [if_pos hxc] at hy
          simp only [List.head?, Option.mem_def, Option.some.injEq] at hy
          subst hy
          exact (tot x b).resolve_left hxb
        · rw [if_neg hxc] at hy
          simp only [List.head?, Option.mem_def, Option.some.injEq] at hy
          subst hy
          exact (List.chain'_cons'.1 h).1 c (by simp)

/-- Insertion sort with a total relation produces a list whose adjacent
pairs satisfy the relation, with no transitivity assumption. -/
theorem chain'_insertionSort {α : Type} {r : α → α → Prop} [DecidableRel r]
    (tot : ∀ a b, r a b ∨ r b a) :
    ∀ l : List α, List.Chain' r (List.insertionSort r l)
  | [] => by simp
  | a :: l => by
    rw [List.insertionSort]
    exact chain'_orderedInsert tot a _ (chain'_insertionSort tot l)

/-- The banded ranking relation is total. -/
theorem candidateLE_total : ∀ a b : CandidateSlot, candidateLE a b ∨ candidateLE b a := by
  intro a b
  unfold candidateLE
  rw [abs_sub_comm b.confidence a.confidence]
  by_cases h : |a.confidence - b.confidence| > 1 / 10
  · rw [if_pos h, if_pos h]
    exact (le_total b.confidence a.confidence)
  · rw [if_neg h, if_neg h]
    exact (le_total a.start b.start)

/-- The order induced by the ranking comparator coincides with the
pairwise ranking property of the specification. -/
theorem candidateLE_iff_rankedBefore (a b : CandidateSlot) :
    candidateLE a b ↔ rankedBefore a b := by
  unfold candidateLE rankedBefore
  by_cases h : |a.confidence - b.confidence| > 1 / 10
  · rw [if_pos h]
    constructor
    · intro hle
      left
      have habs : |a.confidence - b.confidence| = a.confidence - b.confidence :=
        abs_of_nonneg (by linarith)
      rw [habs] at h
      linarith
    · rintro (h1 | ⟨h2, _⟩)
      · linarith
      · exact absurd h2 (not_le.2 h)
  · rw [if_neg h]
    push_neg at h
    constructor
    · intro hle
      exact Or.inr ⟨h, hle⟩
    · rintro (h1 | ⟨_, h2⟩)
      · exfalso
        have hd : a.confidence - b.confidence > 1 / 10 := by linarith
        have := le_abs_self (a.confidence - b.confidence)
        linarith
      · exact h2

/-- Every candidate of the single-participant branch has confidence 1. -/
theorem singleUserCandidates_confidence (inp : ProposeInput) (u : UserFreeBusy) :
    ∀ c ∈ singleUserCandidates inp u, c.confidence = 1 := by
  intro c hc
  unfold singleUserCandidates at hc
  rcases List.mem_filterMap.1 hc with ⟨slot, _, hf⟩
  simp only at hf
  split_ifs at hf
  all_goals rw [Option.some.injEq] at hf
  all_goals subst hf
  all_goals rfl

/-- Lists of candidates of equal confidence that are chained by start
time are chained by the ranking property. -/
theorem chain'_rankedBefore_of_slotLE :
    ∀ l : List CandidateSlot, (∀ c ∈ l, c.confidence = 1) →
      List.Chain' slotLE l → List.Chain' rankedBefore l
  | [], _, _ => List.chain'_nil
  | [a], _, _ => List.chain'_singleton a
  | a :: b :: t, hconf, h => by
    refine List.chain'_cons.2 ⟨?_, ?_⟩
    · refine Or.inr ⟨?_, (List.chain'_cons.1 h).1⟩
      rw [hconf a (by simp), hconf b (by simp)]
      norm_num
    · exact chain'_rankedBefore_of_slotLE (b :: t)
        (fun c hc => hconf c (List.mem_cons_of_mem a hc)) (List.chain'_cons.1 h).2

/-- Claim C5, corrected.  The banded comparator of intersect.ts is not
transitive, so the ranking property cannot hold for arbitrary pairs of
returned candidates; for adjacent pairs it does hold, on every input
and along both the single-participant and the multi-participant path:
for consecutive candidates A before B, either the confidence of A
exceeds that of B by more than 0.1, or the confidences are within 0.1
and A starts no later than B. -/
theorem C5_ranking_adjacent (inp : ProposeInput) (users : List UserFreeBusy) :
    List.Chain' rankedBefore (findIntersectingSlots inp users) := by
  cases users with
  | nil =>
    simp [findIntersectingSlots]
  | cons first rest =>
    cases rest with
    | nil =>
      simp only [findIntersectingSlots]
      apply List.Chain'.take
      apply chain'_rankedBefore_of_slotLE
      · intro c hc
        exact singleUserCandidates_confidence inp first c ((List.mem_insertionSort slotLE).1 hc)
      · exact (List.sorted_insertionSort slotLE _).chain'
    | cons second others =>
      simp only [findIntersectingSlots]
      split
      · exact List.chain'_nil
      · apply List.Chain'.take
        exact (chain'_insertionSort candidateLE_total _).imp
          (fun {a b} h => (candidateLE_iff_rankedBefore a b).1 h)

/-- Claim C5, counterexample to the claim as stated: on the engineered
fifteen-participant input the returned sequence contains candidates
with confidences 10/15, 11/15 and 12/15 ordered by start time, and the
first and third returned candidates violate the pairwise ranking
property, because the comparator is cyclic on them. -/
theorem C5_counterexample :
    ¬ monotonicRanking (findIntersectingSlots plainInput rankUsers) := by
  decide

/-- A candidate returned by the single-participant branch comes from
singleUserCandidates. -/
theorem mem_output_single {inp : ProposeInput} {u : UserFreeBusy} {c : CandidateSlot}
    (h : c ∈ findIntersectingSlots inp [u]) : c ∈ singleUserCandidates inp u := by
  simp only [findIntersectingSlots] at h
  exact (List.mem_insertionSort slotLE).1 (List.mem_of_mem_take h)

/-- A candidate returned by the multi-participant branch comes from
seedCandidate on some seed interval of the first participant. -/
theorem mem_output_multi {inp : ProposeInput} {first second : UserFreeBusy}
    {others : List UserFreeBusy} {c : CandidateSlot}
    (h : c ∈ findIntersectingSlots inp (first :: second :: others)) :
    ∃ seed ∈ first.free,
      seedCandidate inp ((second :: others).length + 1) first.email (second :: others) seed = some c := by
  simp only [findIntersectingSlots] at h
  split at h
  · cases h
  · exact List.mem_filterMap.1 ((List.mem_insertionSort candidateLE).1 (List.mem_of_mem_take h))

/-- Shape of a candidate produced from one seed interval: its attendee
object and confidence come from the fold, and its span is either the
whole common interval (no buffers, with the duration test passed) or
exactly the requested duration offset by the leading buffer. -/
theorem seedCandidate_spec {inp : ProposeInput} {n : Nat} {firstEmail : String}
    {others : List UserFreeBusy} {seed : TimeInterval} {c : CandidateSlot}
    (h : seedCandidate inp n firstEmail others seed = some c) :
    c.attendeeAvailability = (foldSeed firstEmail others seed).2.2 ∧
    c.confidence = calculateConfidence (foldSeed firstEmail others seed).2.2 n ∧
    ((inp.bufferBeforeMinutes = 0 ∧ inp.bufferAfterMinutes = 0) →
       getDurationMinutes c.start c.stop ≥ inp.durationMinutes) ∧
    (¬ (inp.bufferBeforeMinutes = 0 ∧ inp.bufferAfterMinutes = 0) →
       c.stop - c.start = 60000 * inp.durationMinutes) := by
  unfold seedCandidate at h
  dsimp only at h
  split at h
  · exact absurd h (by simp)
  · rename_i hchanged
    split at h
    · rename_i hdur
      split_ifs at h with hbuf heff
      · rw [Option.some.injEq] at h
        subst h
        exact ⟨rfl, rfl, fun _ => hdur, fun hb => absurd hbuf hb⟩
      · rw [Option.some.injEq] at h
        subst h
        exact ⟨rfl, rfl, fun hb => absurd hb hbuf, fun _ => by dsimp; ring⟩
    · exact absurd h (by simp)

/-- Shape of a candidate produced by the single-participant branch. -/
theorem singleUserCandidates_spec {inp : ProposeInput} {u : UserFreeBusy} {c : CandidateSlot}
    (h : c ∈ singleUserCandidates inp u) :
    c.attendeeAvailability = [(u.email, AvStatus.free)] ∧
    c.confidence = 1 ∧
    ((inp.bufferBeforeMinutes = 0 ∧ inp.bufferAfterMinutes = 0) →
       getDurationMinutes c.start c.stop ≥ inp.durationMinutes) ∧
    (¬ (inp.bufferBeforeMinutes = 0 ∧ inp.bufferAfterMinutes = 0) →
       c.stop - c.start = 60000 * inp.durationMinutes) := by
  unfold singleUserCandidates at h
  rcases List.mem_filterMap.1 h with ⟨slot, _, hf⟩
  simp only at hf
  split_ifs at hf with h1 h2 h3
  all_goals rw [Option.some.injEq] at hf
  all_goals subst hf
  · refine ⟨rfl, rfl, fun _ => h1, fun hb => absurd h2 hb⟩
  · refine ⟨rfl, rfl, fun hb => absurd hb h2, fun _ => by dsimp; ring⟩

/-- Claim C2, confirmed.  Every returned candidate has span exactly the
requested duration when a buffer is nonzero (stop minus start is the
duration in milliseconds, so its minute measure equals the duration
exactly), and span at least the requested duration, in the minute
measure getDurationMinutes used by the source, when both buffers are
zero.  This holds on both the single-participant and the
multi-participant path. -/
theorem C2_duration_invariant (inp : ProposeInput) (users : List UserFreeBusy)
    (c : CandidateSlot) (hc : c ∈ findIntersectingSlots inp users) :
    (¬ (inp.bufferBeforeMinutes = 0 ∧ inp.bufferAfterMinutes = 0) →
       c.stop - c.start = 60000 * inp.durationMinutes) ∧
    ((inp.bufferBeforeMinutes = 0 ∧ inp.bufferAfterMinutes = 0) →
       getDurationMinutes c.start c.stop ≥ inp.durationMinutes) := by
  cases users with
  | nil =>
    simp [findIntersectingSlots] at hc
  | cons first rest =>
    cases rest with
    | nil =>
      have hs := singleUserCandidates_spec (mem_output_single hc)
      exact ⟨hs.2.2.2, hs.2.2.1⟩
    | cons second others =>
      rcases mem_output_multi hc with ⟨seed, _, hsc⟩
      have hs := seedCandidate_spec hsc
      exact ⟨hs.2.2.2, hs.2.2.1⟩

/-- Witness for C2 at a concrete input: scenario 1 with buffers 15/15
produces the centered candidate of exactly 30 minutes. -/
theorem C2_duration_invariant_witness :
    (⟨hm 10 15, hm 10 45, [("u1", AvStatus.free), ("u2", AvStatus.free)], 1⟩ : CandidateSlot) ∈
      findIntersectingSlots ⟨30, 5, 15, 15, none⟩
        [⟨"u1", [⟨hm 9 0, hm 12 0⟩], []⟩, ⟨"u2", [⟨hm 10 0, hm 11 0⟩], []⟩] ∧
    (hm 10 45 : Int) - hm 10 15 = 60000 * 30 := by
  refine ⟨by decide, ?_⟩
  exact (C2_duration_invariant ⟨30, 5, 15, 15, none⟩
    [⟨"u1", [⟨hm 9 0, hm 12 0⟩], []⟩, ⟨"u2", [⟨hm 10 0, hm 11 0⟩], []⟩]
    ⟨hm 10 15, hm 10 45, [("u1", AvStatus.free), ("u2", AvStatus.free)], 1⟩
    (by decide)).1 (by decide)

/-- setStatus changes the length by at most one. -/
theorem setStatus_length_le (m : List (String × AvStatus)) (k : String) (v : AvStatus) :
    (setStatus m k v).length ≤ m.length + 1 := by
  unfold setStatus
  split
  · rw [List.length_map]
    omega
  · rw [List.length_append]
    simp

/-- Every entry of setStatus m k v is the written pair or an entry of
m. -/
theorem setStatus_mem (m : List (String × AvStatus)) (k : String) (v : AvStatus) :
    ∀ p ∈ setStatus m k v, p = (k, v) ∨ p ∈ m := by
  intro p hp
  unfold setStatus at hp
  split at hp
  · rcases List.mem_map.1 hp with ⟨q, hq, heq⟩
    by_cases h : q.1 == k
    · rw [if_pos h] at heq
      exact Or.inl heq.symm
    · rw [if_neg (by simpa using h)] at heq
      exact Or.inr (heq ▸ hq)
  · rcases List.mem_append.1 hp with h | h
    · exact Or.inr h
    · exact Or.inl (by simpa using h)

/-- An entry with a different key survives setStatus. -/
theorem setStatus_mem_of_ne (m : List (String × AvStatus)) (k : String) (v : AvStatus)
    (a : String) (w : AvStatus) (ha : (a, w) ∈ m) (hne : a ≠ k) :
    (a, w) ∈ setStatus m k v := by
  unfold setStatus
  split
  · refine List.mem_map.2 ⟨(a, w), ha, ?_⟩
    rw [if_neg (by simpa using hne)]
  · exact List.mem_append_left _ ha

/-- The seed fold grows the availability object by at most one entry
per folded participant. -/
theorem foldl_seedStep_length :
    ∀ (others : List UserFreeBusy) (acc : TimeInterval × Bool × List (String × AvStatus)),
      (others.foldl seedStep acc).2.2.length ≤ acc.2.2.length + others.length
  | [], acc => by simp
  | u :: rest, acc => by
    rw [List.foldl_cons]
    have h1 := foldl_seedStep_length rest (seedStep acc u)
    have h2 : (seedStep acc u).2.2.length ≤ acc.2.2.length + 1 := by
      unfold seedStep
      cases findBestIntersection acc.1 u.free <;> exact setStatus_length_le ..
    simp only [List.length_cons]
    omega

/-- The seed fold writes only the statuses free and busy. -/
theorem foldl_seedStep_values :
    ∀ (others : List UserFreeBusy) (acc : TimeInterval × Bool × List (String × AvStatus)),
      (∀ p ∈ acc.2.2, p.2 = AvStatus.free ∨ p.2 = AvStatus.busy) →
      ∀ p ∈ (others.foldl seedStep acc).2.2, p.2 = AvStatus.free ∨ p.2 = AvStatus.busy
  | [], acc, hacc => hacc
  | u :: rest, acc, hacc => by
    rw [List.foldl_cons]
    refine foldl_seedStep_values rest (seedStep acc u) ?_
    intro p hp
    unfold seedStep at hp
    rcases hfb : findBestIntersection acc.1 u.free with _ | iv <;> rw [hfb] at hp <;> dsimp at hp
    · rcases setStatus_mem _ _ _ p hp with h | h
      · exact Or.inr (by rw [h])
      · exact hacc p h
    · rcases setStatus_mem _ _ _ p hp with h | h
      · exact Or.inl (by rw [h])
      · exact hacc p h

/-- An entry whose key is not the email of any folded participant
survives the seed fold. -/
theorem foldl_seedStep_keep :
    ∀ (others : List UserFreeBusy) (acc : TimeInterval × Bool × List (String × AvStatus))
      (a : String) (w : AvStatus),
      (a, w) ∈ acc.2.2 → (∀ u ∈ others, a ≠ u.email) →
      (a, w) ∈ (others.foldl seedStep acc).2.2
  | [], _, _, _, ha, _ => ha
  | u :: rest, acc, a, w, ha, hne => by
    rw [List.foldl_cons]
    refine foldl_seedStep_keep rest (seedStep acc u) a w ?_ (fun v hv => hne v (by simp [hv]))
    unfold seedStep
    rcases hfb : findBestIntersection acc.1 u.free with _ | iv <;> dsimp <;>
      exact setStatus_mem_of_ne _ _ _ _ _ ha (hne u (by simp))

/-- calculateConfidence with a positive participant count is the
weighted attendee score divided by the count. -/
theorem calculateConfidence_eq (m : List (String × AvStatus)) (n : Nat) (hn : 0 < n) :
    calculateConfidence m n =
      ((m.countP (fun p => p.2 == AvStatus.free) : ℚ) * 1 +
        (m.countP (fun p => p.2 == AvStatus.tentative) : ℚ) * (1 / 2)) / (n : ℚ) := by
  unfold calculateConfidence
  rw [if_pos hn]
  ring

/-- Two pointwise incompatible predicates count at most the length. -/
theorem countP_two_le_length {α : Type} (p q : α → Bool)
    (hpq : ∀ a, ¬(p a = true ∧ q a = true)) :
    ∀ l : List α, l.countP p + l.countP q ≤ l.length
  | [] => by simp
  | a :: t => by
    rw [List.countP_cons, List.countP_cons, List.length_cons]
    have ht := countP_two_le_length p q hpq t
    have ha := hpq a
    by_cases h1 : p a <;> by_cases h2 : q a <;> simp [h1, h2] at ha ⊢ <;> omega

/-- calculateConfidence lies in the unit interval whenever the
availability object has at most one entry per participant. -/
theorem calculateConfidence_bounds (m : List (String × AvStatus)) (n : Nat)
    (hn : 0 < n) (hlen : m.length ≤ n) :
    0 ≤ calculateConfidence m n ∧ calculateConfidence m n ≤ 1 := by
  have hft : m.countP (fun p => p.2 == AvStatus.free) +
      m.countP (fun p => p.2 == AvStatus.tentative) ≤ m.length := by
    refine countP_two_le_length _ _ ?_ m
    intro a
    cases ha : a.2 <;> simp [ha]
  have hcast : (m.countP (fun p => p.2 == AvStatus.free) : ℚ) +
      (m.countP (fun p => p.2 == AvStatus.tentative) : ℚ) ≤ (n : ℚ) := by
    exact_mod_cast le_trans hft hlen
  have hn' : (0 : ℚ) < (n : ℚ) := by exact_mod_cast hn
  unfold calculateConfidence
  rw [if_pos hn]
  constructor
  · apply div_nonneg _ (le_of_lt hn')
    positivity
  · rw [div_le_one hn']
    have h0 : (0 : ℚ) ≤ (m.countP (fun p => p.2 == AvStatus.tentative) : ℚ) := by positivity
    linarith

/-- Claim C6, confirmed.  Every returned candidate has confidence equal
to the number of attendees marked free plus half the number marked
tentative, divided by the number N of participants handed to the
engine (including participants marked busy), and the confidence always
lies in the unit interval. -/
theorem C6_confidence (inp : ProposeInput) (users : List UserFreeBusy) (c : CandidateSlot)
    (hc : c ∈ findIntersectingSlots inp users) :
    c.confidence =
      ((c.attendeeAvailability.countP (fun p => p.2 == AvStatus.free) : ℚ) * 1 +
        (c.attendeeAvailability.countP (fun p => p.2 == AvStatus.tentative) : ℚ) * (1 / 2)) /
        (users.length : ℚ) ∧
    0 ≤ c.confidence ∧ c.confidence ≤ 1 := by
  cases users with
  | nil => simp [findIntersectingSlots] at hc
  | cons first rest =>
    cases rest with
    | nil =>
      have hs := singleUserCandidates_spec (mem_output_single hc)
      rw [hs.1, hs.2.1]
      norm_num [List.countP_cons]
      decide
    | cons second others =>
      rcases mem_output_multi hc with ⟨seed, hseed, hsc⟩
      have hs := seedCandidate_spec hsc
      have hn : 0 < (second :: others).length + 1 := by simp
      have hlen : (foldSeed first.email (second :: others) seed).2.2.length ≤
          (second :: others).length + 1 := by
        have h := foldl_seedStep_length (second :: others)
          (seed, false, [(first.email, AvStatus.free)])
        unfold foldSeed
        simp only [List.length_cons, List.length_nil] at h ⊢
        omega
      refine ⟨?_, ?_⟩
      · rw [hs.2.1, hs.1]
        rw [calculateConfidence_eq _ _ hn]
        norm_num [List.length_cons]
      · rw [hs.2.1]
        exact calculateConfidence_bounds _ _ hn hlen

/-- Witness for C6: the first candidate of scenario 1 has confidence
(2 * 1 + 0 * 0.5) / 2 = 1. -/
theorem C6_confidence_witness :
    (⟨hm 10 0, hm 11 0, [("u1", AvStatus.free), ("u2", AvStatus.free)], 1⟩ :
        CandidateSlot).confidence =
      (((⟨hm 10 0, hm 11 0, [("u1", AvStatus.free), ("u2", AvStatus.free)], 1⟩ :
          CandidateSlot).attendeeAvailability.countP (fun p => p.2 == AvStatus.free) : ℚ) * 1 +
        ((⟨hm 10 0, hm 11 0, [("u1", AvStatus.free), ("u2", AvStatus.free)], 1⟩ :
          CandidateSlot).attendeeAvailability.countP (fun p => p.2 == AvStatus.tentative) : ℚ) *
          (1 / 2)) / (scenarioUsers.length : ℚ) ∧
    0 ≤ (⟨hm 10 0, hm 11 0, [("u1", AvStatus.free), ("u2", AvStatus.free)], 1⟩ :
        CandidateSlot).confidence ∧
    (⟨hm 10 0, hm 11 0, [("u1", AvStatus.free), ("u2", AvStatus.free)], 1⟩ :
        CandidateSlot).confidence ≤ 1 :=
  C6_confidence plainInput scenarioUsers _ (by decide)

/-- Claim C10, corrected.  The local intersection path assigns only the
statuses free and busy, never tentative, on every input, duplicates
included.  Provided additionally that the participant emails are
pairwise distinct, the seed participant keeps the status free in every
returned candidate and the confidence is k divided by N for an integer
k between 1 and N.  Distinctness guards only those two parts: without
it the seed entry of the email-keyed availability object can be
overwritten by a later duplicate (see the counterexample). -/
theorem C10_local_statuses (inp : ProposeInput) (users : List UserFreeBusy) (c : CandidateSlot)
    (hc : c ∈ findIntersectingSlots inp users) :
    (∀ p ∈ c.attendeeAvailability, p.2 = AvStatus.free ∨ p.2 = AvStatus.busy) ∧
    ((users.map (fun u => u.email)).Nodup →
      (∀ u0 ∈ users.head?, (u0.email, AvStatus.free) ∈ c.attendeeAvailability) ∧
      (∃ k : Nat, 1 ≤ k ∧ k ≤ users.length ∧
        c.confidence = (k : ℚ) / (users.length : ℚ))) := by
  cases users with
  | nil => simp [findIntersectingSlots] at hc
  | cons first rest =>
    cases rest with
    | nil =>
      have hs := singleUserCandidates_spec (mem_output_single hc)
      refine ⟨?_, fun _ => ⟨?_, 1, le_refl 1, by simp, ?_⟩⟩
      · intro p hp
        rw [hs.1] at hp
        simp at hp
        rw [hp]
        exact Or.inl rfl
      · intro u0 hu0
        simp at hu0
        subst hu0
        rw [hs.1]
        simp
      · rw [hs.2.1]
        norm_num
    | cons second others =>
      rcases mem_output_multi hc with ⟨seed, hseed, hsc⟩
      have hs := seedCandidate_spec hsc
      have hvals : ∀ p ∈ (foldSeed first.email (second :: others) seed).2.2,
          p.2 = AvStatus.free ∨ p.2 = AvStatus.busy := by
        unfold foldSeed
        refine foldl_seedStep_values _ _ ?_
        intro p hp
        simp at hp
        rw [hp]
        exact Or.inl rfl
      have hn : 0 < (second :: others).length + 1 := by simp
      have hlen : (foldSeed first.email (second :: others) seed).2.2.length ≤
          (second :: others).length + 1 := by
        have h := foldl_seedStep_length (second :: others)
          (seed, false, [(first.email, AvStatus.free)])
        unfold foldSeed
        simp only [List.length_cons, List.length_nil] at h ⊢
        omega
      have htent : (foldSeed first.email (second :: others) seed).2.2.countP
          (fun p => p.2 == AvStatus.tentative) = 0 := by
        rw [List.countP_eq_zero]
        intro p hp
        rcases hvals p hp with h | h <;> simp [h]
      refine ⟨?_, ?_⟩
      · intro p hp
        rw [hs.1] at hp
        exact hvals p hp
      · intro hnd
        have hne : ∀ u ∈ (second :: others), first.email ≠ u.email := by
          intro u hu heq
          have h1 := (List.nodup_cons.1 hnd).1
          exact h1 (List.mem_map.2 ⟨u, hu, heq.symm⟩)
        have hmem : (first.email, AvStatus.free) ∈
            (foldSeed first.email (second :: others) seed).2.2 := by
          unfold foldSeed
          exact foldl_seedStep_keep _ _ _ _ (by simp) hne
        refine ⟨?_, ?_⟩
        · intro u0 hu0
          simp at hu0
          subst hu0
          rw [hs.1]
          exact hmem
        · refine ⟨(foldSeed first.email (second :: others) seed).2.2.countP
            (fun p => p.2 == AvStatus.free), ?_, ?_, ?_⟩
          · have : 0 < (foldSeed first.email (second :: others) seed).2.2.countP
                (fun p => p.2 == AvStatus.free) :=
              List.countP_pos_iff.2 ⟨(first.email, AvStatus.free), hmem, by simp⟩
            omega
          · refine le_trans (List.countP_le_length _) ?_
            simp only [List.length_cons, List.length_nil] at hlen ⊢
            omega
          · rw [hs.2.1, calculateConfidence_eq _ _ hn, htent]
            norm_num [List.length_cons]

/-- Witness for C10: the sole candidate of scenario 1 has only free and
busy statuses, and since the two scenario emails are distinct, the seed
participant is free and the confidence is 2 over 2. -/
theorem C10_local_statuses_witness :
    (∀ p ∈ (⟨hm 10 0, hm 11 0, [("u1", AvStatus.free), ("u2", AvStatus.free)], 1⟩ :
        CandidateSlot).attendeeAvailability, p.2 = AvStatus.free ∨ p.2 = AvStatus.busy) ∧
    ((∀ u0 ∈ scenarioUsers.head?,
      (u0.email, AvStatus.free) ∈ (⟨hm 10 0, hm 11 0,
        [("u1", AvStatus.free), ("u2", AvStatus.free)], 1⟩ : CandidateSlot).attendeeAvailability) ∧
    (∃ k : Nat, 1 ≤ k ∧ k ≤ scenarioUsers.length ∧
      (⟨hm 10 0, hm 11 0, [("u1", AvStatus.free), ("u2", AvStatus.free)], 1⟩ :
        CandidateSlot).confidence = (k : ℚ) / (scenarioUsers.length : ℚ))) := by
  have h := C10_local_statuses plainInput scenarioUsers
    ⟨hm 10 0, hm 11 0, [("u1", AvStatus.free), ("u2", AvStatus.free)], 1⟩ (by decide)
  exact ⟨h.1, h.2 (by decide)⟩

/-- Claim C10, counterexample to the claim as stated: with a duplicated
participant email the availability object of the only returned
candidate maps the email of the seed participant to busy, because the
object is keyed by email and the later duplicate overwrote the entry. -/
theorem C10_counterexample :
    (findIntersectingSlots plainInput dupUsers).map (fun c => c.attendeeAvailability) =
      [[("a", AvStatus.busy), ("b", AvStatus.free)]] ∧
    ¬ (∀ c ∈ findIntersectingSlots plainInput dupUsers,
        ("a", AvStatus.free) ∈ c.attendeeAvailability) := by
  constructor <;> decide

/-- Claim C3, confirmed (scenario 1).  With the two scenario
participants, duration 30, no buffers and any maxCandidates of at
least 2, exactly the two candidates 10:00 to 11:00 and 15:00 to 16:00
are returned, each with confidence 1, ordered by ascending start
time. -/
theorem C3_scenario_one (mc : Nat) (hmc : 2 ≤ mc) :
    findIntersectingSlots ⟨30, mc, 0, 0, none⟩ scenarioUsers =
      [⟨hm 10 0, hm 11 0, [("u1", AvStatus.free), ("u2", AvStatus.free)], 1⟩,
       ⟨hm 15 0, hm 16 0, [("u1", AvStatus.free), ("u2", AvStatus.free)], 1⟩] := by
  have h : findIntersectingSlots ⟨30, mc, 0, 0, none⟩ scenarioUsers =
      ([⟨hm 10 0, hm 11 0, [("u1", AvStatus.free), ("u2", AvStatus.free)], 1⟩,
        ⟨hm 15 0, hm 16 0, [("u1", AvStatus.free), ("u2", AvStatus.free)], 1⟩] :
        List CandidateSlot).take mc := rfl
  rw [h, List.take_of_length_le (by simpa using hmc)]

/-- Witness for C3 at maxCandidates 2. -/
theorem C3_scenario_one_witness :
    findIntersectingSlots ⟨30, 2, 0, 0, none⟩ scenarioUsers =
      [⟨hm 10 0, hm 11 0, [("u1", AvStatus.free), ("u2", AvStatus.free)], 1⟩,
       ⟨hm 15 0, hm 16 0, [("u1", AvStatus.free), ("u2", AvStatus.free)], 1⟩] :=
  C3_scenario_one 2 (by decide)

/-- Claim C4, confirmed (scenario 2).  The multi-participant
qualification test is greater-or-equal, so with duration 60 the two
common intervals of exactly 60 minutes both qualify and each candidate
spans its full overlap. -/
theorem C4_exact_duration (mc : Nat) (hmc : 2 ≤ mc) :
    findIntersectingSlots ⟨60, mc, 0, 0, none⟩ scenarioUsers =
      [⟨hm 10 0, hm 11 0, [("u1", AvStatus.free), ("u2", AvStatus.free)], 1⟩,
       ⟨hm 15 0, hm 16 0, [("u1", AvStatus.free), ("u2", AvStatus.free)], 1⟩] ∧
    getDurationMinutes (hm 10 0) (hm 11 0) = 60 ∧
    getDurationMinutes (hm 15 0) (hm 16 0) = 60 := by
  have h : findIntersectingSlots ⟨60, mc, 0, 0, none⟩ scenarioUsers =
      ([⟨hm 10 0, hm 11 0, [("u1", AvStatus.free), ("u2", AvStatus.free)], 1⟩,
        ⟨hm 15 0, hm 16 0, [("u1", AvStatus.free), ("u2", AvStatus.free)], 1⟩] :
        List CandidateSlot).take mc := rfl
  refine ⟨?_, by decide, by decide⟩
  rw [h, List.take_of_length_le (by simpa using hmc)]

/-- Witness for C4 at maxCandidates 2. -/
theorem C4_exact_duration_witness :
    findIntersectingSlots ⟨60, 2, 0, 0, none⟩ scenarioUsers =
      [⟨hm 10 0, hm 11 0, [("u1", AvStatus.free), ("u2", AvStatus.free)], 1⟩,
       ⟨hm 15 0, hm 16 0, [("u1", AvStatus.free), ("u2", AvStatus.free)], 1⟩] ∧
    getDurationMinutes (hm 10 0) (hm 11 0) = 60 ∧
    getDurationMinutes (hm 15 0) (hm 16 0) = 60 :=
  C4_exact_duration 2 (by decide)

/-- Claim C7, confirmed.  getAvailability returns exactly one entry per
participant in the original order; a participant whose provider fetch
throws gets exactly the empty availability with null working hours,
and the entries of all other participants do not depend on that
failure: any provider agreeing with P away from the failed participant
produces identical entries for the others. -/
theorem C7_error_isolation (P : Provider) (participants : List String)
    (ws we g : Int) (workHoursOnly : Bool) (tz : Int) (i : Nat) (e : String)
    (he : participants[i]? = some e) :
    (getAvailability P participants ws we g workHoursOnly tz).length = participants.length ∧
    (getAvailability P participants ws we g workHoursOnly tz).map
        (fun u => u.email) = participants ∧
    (P.fetch e = Except.error () →
      (getAvailability P participants ws we g workHoursOnly tz)[i]? =
        some ⟨e, none, [], []⟩) ∧
    (∀ P' : Provider,
      (∀ x, x ≠ e → P'.fetch x = P.fetch x ∧ P'.hours x = P.hours x) →
      ∀ (j : Nat) (e' : String), participants[j]? = some e' → e' ≠ e →
        (getAvailability P' participants ws we g workHoursOnly tz)[j]? =
          (getAvailability P participants ws we g workHoursOnly tz)[j]?) := by
  refine ⟨by simp [getAvailability], ?_, ?_, ?_⟩
  · clear he
    unfold getAvailability
    rw [List.map_map]
    induction participants with
    | nil => rfl
    | cons a t ih =>
      rw [List.map_cons]
      refine congrArg₂ List.cons ?_ ih
      simp only [Function.comp]
      unfold getUserAvailability
      cases P.fetch a <;> rfl
  · intro hfe
    unfold getAvailability
    rw [List.getElem?_map, he]
    simp only [Option.map_some']
    unfold getUserAvailability
    rw [hfe]
  · intro P' hagree j e' hj hne
    unfold getAvailability
    rw [List.getElem?_map, List.getElem?_map, hj]
    simp only [Option.map_some']
    unfold getUserAvailability
    rw [(hagree e' hne).1, (hagree e' hne).2]

/-- Witness for C7: with a provider failing exactly for u.bad, the
first entry degrades to the empty availability. -/
theorem C7_error_isolation_witness :
    (getAvailability sampleProvider ["u.bad", "ok@example.com"] 0 3600000 30 false 0)[0]? =
      some ⟨"u.bad", none, [], []⟩ :=
  (C7_error_isolation sampleProvider ["u.bad", "ok@example.com"] 0 3600000 30 false 0 0 "u.bad"
    rfl).2.2.1 rfl

/-- Claim C8, confirmed.  The native result with source
graph_findMeetingTimes is returned exactly when the native call
succeeds with at least one suggestion; when it throws or yields zero
suggestions the error is swallowed and the result is the local
pipeline (availability normalization, intersection, then the
minimum-attendance filter) with source local_intersection. -/
theorem C8_native_fallback (native : Except Unit (List CandidateSlot)) (P : Provider)
    (participants : List String) (inp : ProposeInput) (ws we : Int)
    (workHoursOnly : Bool) (tz : Int) :
    ((findMeetingTimes native P participants inp ws we workHoursOnly tz).source =
        ResultSource.graph_findMeetingTimes ↔ ∃ cs, native = Except.ok cs ∧ cs ≠ []) ∧
    ((native = Except.error () ∨ native = Except.ok []) →
      findMeetingTimes native P participants inp ws we workHoursOnly tz =
        findMeetingTimesLocal P participants inp ws we workHoursOnly tz) ∧
    (∀ cs, native = Except.ok cs → cs ≠ [] →
      findMeetingTimes native P participants inp ws we workHoursOnly tz =
        ⟨ResultSource.graph_findMeetingTimes, cs⟩) := by
  cases native with
  | error err =>
    cases err
    refine ⟨?_, ?_, ?_⟩
    · simp [findMeetingTimes, findMeetingTimesLocal]
    · intro _
      rfl
    · intro cs hcs
      cases hcs
  | ok cs =>
    by_cases hcs : cs = []
    · subst hcs
      refine ⟨?_, fun _ => rfl, ?_⟩
      · simp [findMeetingTimes, findMeetingTimesLocal]
      · intro cs' hcs' hne
        rw [Except.ok.injEq] at hcs'
        exact absurd hcs'.symm hne
    · have hlen : cs.length > 0 := List.length_pos.2 hcs
      refine ⟨?_, ?_, ?_⟩
      · simp only [findMeetingTimes, if_pos hlen]
        exact ⟨fun _ => ⟨cs, rfl, hcs⟩, fun _ => trivial⟩
      · rintro (h | h)
        · cases h
        · rw [Except.ok.injEq] at h
          exact absurd h hcs
      · intro cs' hcs' _
        rw [Except.ok.injEq] at hcs'
        subst hcs'
        simp only [findMeetingTimes, if_pos hlen]

/-- Witness for C8: a failing native call falls back to the local
pipeline. -/
theorem C8_native_fallback_witness :
    findMeetingTimes (Except.error ()) okProvider ["a@b.c"] plainInput 0 3600000 false 0 =
      findMeetingTimesLocal okProvider ["a@b.c"] plainInput 0 3600000 false 0 :=
  (C8_native_fallback (Except.error ()) okProvider ["a@b.c"] plainInput 0 3600000 false
    0).2.1 (Or.inl rfl)

/-- Claim C9, code bug.  The working-hours gate described by the claim
exists in utils/time.ts (clipToWorkingHours keeps a gap exactly when
both endpoints pass the inclusive day and clock check and never clips),
but the current processFreeBusy accepts workHoursOnly and workingHours
and never uses them, although it imports clipToWorkingHours: with
workHoursOnly set, known working hours Monday to Friday 09:00 to
17:00, and an otherwise empty Sunday window, the whole Sunday gap is
emitted as free even though both endpoints fail the working-hours
check and clipToWorkingHours would drop it. -/
theorem C9_working_hours_ignored :
    processFreeBusy [] sundayTen sundayEleven 30 true (some defaultWorkingHours) 0 =
      ([], [⟨sundayTen, sundayEleven⟩]) ∧
    isWithinWorkingHours sundayTen defaultWorkingHours 0 = false ∧
    isWithinWorkingHours sundayEleven defaultWorkingHours 0 = false ∧
    clipToWorkingHours ⟨sundayTen, sundayEleven⟩ defaultWorkingHours 0 = none := by
  refine ⟨by decide, by decide, by decide, by decide⟩

/-- On aligned instants roundToInterval is the identity. -/
theorem roundToInterval_aligned (g t : Int) (hg : 0 < g) (ha : alignedTo g t) :
    roundToInterval t g = t := by
  obtain ⟨h1, h2⟩ := ha
  obtain ⟨q, hq⟩ := Int.dvd_of_emod_eq_zero h2
  have hdiv : (2 * (t / 60000 % 60) + g) / (2 * g) = q := by
    rw [hq]
    have hrw : 2 * (g * q) + g = g + q * (2 * g) := by ring
    rw [hrw, Int.add_mul_ediv_right _ _ (by omega : (2 * g) ≠ 0),
      Int.ediv_eq_zero_of_lt (le_of_lt hg) (by omega)]
    omega
  simp only [roundToInterval]
  rw [hdiv, ← hq]
  omega

/-- No busy period and no gap of a laid-out list covers an instant
strictly before the cursor. -/
theorem countP_eq_zero_of_lt_cursor (we : Int) :
    ∀ (L : List ScheduleItem) (cursor t : Int), Laid we cursor L → t < cursor →
      L.countP (coversItem t) = 0 ∧ (gaps we cursor L).countP (covers t) = 0
  | [], cursor, t, _, ht => by
    refine ⟨rfl, ?_⟩
    unfold gaps
    split
    · have hcov : covers t ⟨cursor, we⟩ = false := by
        simp only [covers, Bool.and_eq_false_iff, decide_eq_false_iff_not]
        omega
      simp [List.countP_cons, hcov]
    · rfl
  | it :: rest, cursor, t, h, ht => by
    obtain ⟨h1, h2, h3⟩ := h
    have ih := countP_eq_zero_of_lt_cursor we rest it.stop t h3 (by omega)
    constructor
    · rw [List.countP_cons]
      have hcov : coversItem t it = false := by
        simp only [coversItem, Bool.and_eq_false_iff, decide_eq_false_iff_not]
        omega
      simp [hcov, ih.1]
    · unfold gaps
      rw [List.countP_append]
      have hgap : (if cursor < it.start then [(⟨cursor, it.start⟩ : TimeInterval)] else
          []).countP (covers t) = 0 := by
        split
        · have hcov : covers t ⟨cursor, it.start⟩ = false := by
            simp only [covers, Bool.and_eq_false_iff, decide_eq_false_iff_not]
            omega
          simp [List.countP_cons, hcov]
        · rfl
      rw [hgap, ih.2]

/-- Partition core: over a laid-out list of busy periods, every instant
of the window from the cursor onwards is covered by exactly one busy
period or exactly one gap. -/
theorem laid_partition (we : Int) :
    ∀ (L : List ScheduleItem) (cursor t : Int), Laid we cursor L → cursor ≤ t → t < we →
      L.countP (coversItem t) + (gaps we cursor L).countP (covers t) = 1
  | [], cursor, t, _, h1t, h2t => by
    unfold gaps
    rw [if_pos (by omega)]
    have hcov : covers t ⟨cursor, we⟩ = true := by
      simp only [covers, Bool.and_eq_true, decide_eq_true_eq]
      omega
    simp [List.countP_cons, hcov]
  | it :: rest, cursor, t, h, h1t, h2t => by
    obtain ⟨hc1, hc2, hlaid⟩ := h
    unfold gaps
    rw [List.countP_append, List.countP_cons]
    by_cases hA : t < it.start
    · have hgap : (if cursor < it.start then [(⟨cursor, it.start⟩ : TimeInterval)] else
          []).countP (covers t) = 1 := by
        rw [if_pos (by omega)]
        have hcov : covers t ⟨cursor, it.start⟩ = true := by
          simp only [covers, Bool.and_eq_true, decide_eq_true_eq]
          omega
        simp [List.countP_cons, hcov]
      have hit : coversItem t it = false := by
        simp only [coversItem, Bool.and_eq_false_iff, decide_eq_false_iff_not]
        omega
      have hzero := countP_eq_zero_of_lt_cursor we rest it.stop t hlaid (by omega)
      rw [hgap, hit, hzero.1, hzero.2]
      norm_num
    · by_cases hB : t < it.stop
      · have hit : coversItem t it = true := by
          simp only [coversItem, Bool.and_eq_true, decide_eq_true_eq]
          omega
        have hgap : (if cursor < it.start then [(⟨cursor, it.start⟩ : TimeInterval)] else
            []).countP (covers t) = 0 := by
          split
          · have hcov : covers t ⟨cursor, it.start⟩ = false := by
              simp only [covers, Bool.and_eq_false_iff, decide_eq_false_iff_not]
              omega
            simp [List.countP_cons, hcov]
          · rfl
        have hzero := countP_eq_zero_of_lt_cursor we rest it.stop t hlaid hB
        rw [hgap, hit, hzero.1, hzero.2]
        norm_num
      · have ih := laid_partition we rest it.stop t hlaid (by omega) h2t
        have hit : coversItem t it = false := by
          simp only [coversItem, Bool.and_eq_false_iff, decide_eq_false_iff_not]
          omega
        have hgap : (if cursor < it.start then [(⟨cursor, it.start⟩ : TimeInterval)] else
            []).countP (covers t) = 0 := by
          split
          · have hcov : covers t ⟨cursor, it.start⟩ = false := by
              simp only [covers, Bool.and_eq_false_iff, decide_eq_false_iff_not]
              omega
            simp [List.countP_cons, hcov]
          · rfl
        rw [hgap, hit]
        norm_num
        omega

/-- Sorted, pairwise disjoint, wellformed busy periods are laid out. -/
theorem laid_of_sorted (we : Int) :
    ∀ (L : List ScheduleItem) (cursor : Int),
      cursor ≤ we →
      (∀ it ∈ L, cursor ≤ it.start ∧ it.start < it.stop ∧ it.stop ≤ we) →
      List.Pairwise disjointItems L → List.Sorted itemLE L →
      Laid we cursor L
  | [], _, hcw, _, _, _ => hcw
  | it :: rest, cursor, _, hwf, hdisj, hsort => by
    refine ⟨(hwf it (by simp)).1, (hwf it (by simp)).2.1, ?_⟩
    refine laid_of_sorted we rest it.stop (hwf it (by simp)).2.2 ?_ hdisj.of_cons hsort.of_cons
    intro x hx
    have hd := (List.pairwise_cons.1 hdisj).1 x hx
    have hs : it.start ≤ x.start := (List.pairwise_cons.1 hsort).1 x hx
    have hwx := hwf x (List.mem_cons_of_mem it hx)
    refine ⟨?_, hwx.2.1, hwx.2.2⟩
    rcases hd with h | h
    · exact h
    · exfalso
      have := hwx.2.1
      omega

/-- The between-gaps and after-gap of the source coincide with the
canonical gaps from the end of the first busy period, on aligned
laid-out input. -/
theorem midGaps_lastGap_eq (g we : Int) (hg : 0 < g) (halw : alignedTo g we) :
    ∀ (L : List ScheduleItem) (it : ScheduleItem),
      (∀ x ∈ it :: L, alignedTo g x.start ∧ alignedTo g x.stop) →
      Laid we it.stop L →
      midGaps g (it :: L) ++ lastGap g we (it :: L) = gaps we it.stop L
  | [], it, hal, _ => by
    unfold midGaps lastGap gaps maybeGap
    rw [roundToInterval_aligned g it.stop hg (hal it (by simp)).2,
      roundToInterval_aligned g we hg halw]
    split
    · rw [if_pos (by assumption)]
      rfl
    · rfl
  | b :: rest, it, hal, hlaid => by
    obtain ⟨hb1, hb2, hlaid2⟩ := hlaid
    have ih := midGaps_lastGap_eq g we hg halw rest b
      (fun x hx => hal x (List.mem_cons_of_mem it hx)) hlaid2
    have hstep : midGaps g (it :: b :: rest) =
        (if it.stop < b.start then maybeGap g it.stop b.start else []) ++ midGaps g (b :: rest) := rfl
    have hlast : lastGap g we (it :: b :: rest) = lastGap g we (b :: rest) := rfl
    rw [hstep, hlast, List.append_assoc, ih]
    have hgaps : gaps we it.stop (b :: rest) =
        (if it.stop < b.start then [(⟨it.stop, b.start⟩ : TimeInterval)] else []) ++
          gaps we b.stop rest := rfl
    rw [hgaps]
    congr 1
    unfold maybeGap
    rw [roundToInterval_aligned g it.stop hg (hal it (by simp)).2,
      roundToInterval_aligned g b.start hg (hal b (by simp)).1]
    split
    · rw [if_pos (by assumption)]
    · rfl

/-- Claim C1, corrected.  The partition invariant fails for arbitrary
raw input (see the counterexample: overlapping busy periods are both
emitted and double-cover their overlap; a period with provider status
free also suppresses the free gap without producing a busy interval).
It holds under the preconditions the code actually needs: pairwise
disjoint periods with status busy or tentative, contained in the
window, with all instants aligned to the granularity.  Then every
instant of the window lies in exactly one emitted busy interval or
exactly one emitted free interval.  The working-hours exclusion of the
claim never occurs because the current code does not apply the
working-hours restriction at all. -/
theorem C1_partition (items : List ScheduleItem) (ws we g : Int)
    (workHoursOnly : Bool) (workingHours : Option WorkingHours) (tz : Int)
    (hg : 0 < g) (hw : ws < we) (haw : alignedTo g ws) (hae : alignedTo g we)
    (hwf : ∀ it ∈ items, wfItem ws we g it)
    (hdisj : items.Pairwise disjointItems)
    (t : Int) (ht1 : ws ≤ t) (ht2 : t < we) :
    (processFreeBusy items ws we g workHoursOnly workingHours tz).1.countP (covers t) +
      (processFreeBusy items ws we g workHoursOnly workingHours tz).2.countP (covers t) = 1 := by
  have hps : (List.insertionSort itemLE items).Perm items := List.perm_insertionSort itemLE items
  have hwfs : ∀ it ∈ List.insertionSort itemLE items, wfItem ws we g it :=
    fun it hit => hwf it (hps.mem_iff.1 hit)
  have hover : ∀ it ∈ List.insertionSort itemLE items, overlapsWindow ws we it = true := by
    intro it hit
    obtain ⟨w1, w2, w3, _, _, _⟩ := hwfs it hit
    simp only [overlapsWindow, Bool.and_eq_true, decide_eq_true_eq]
    omega
  have hstat : ∀ it ∈ List.insertionSort itemLE items, isBusyStatus it.availability = true := by
    intro it hit
    obtain ⟨_, _, _, _, _, w6⟩ := hwfs it hit
    rcases w6 with h | h <;> simp [isBusyStatus, h]
  have hfilter1 : (List.insertionSort itemLE items).filter (overlapsWindow ws we) =
      List.insertionSort itemLE items := List.filter_eq_self.2 hover
  have hfilter2 : (List.insertionSort itemLE items).filter
      (fun it => overlapsWindow ws we it && isBusyStatus it.availability) =
      List.insertionSort itemLE items := by
    refine List.filter_eq_self.2 ?_
    intro a ha
    rw [hover a ha, hstat a ha]
    rfl
  have hbusy : (processFreeBusy items ws we g workHoursOnly workingHours tz).1 =
      (List.insertionSort itemLE items).map (clipToWindow ws we) := by
    simp only [processFreeBusy]
    rw [hfilter2]
  have hfree : (processFreeBusy items ws we g workHoursOnly workingHours tz).2 =
      if (List.insertionSort itemLE items).isEmpty then [⟨ws, we⟩]
      else
        preGap g ws (List.insertionSort itemLE (List.insertionSort itemLE items)) ++
          midGaps g (List.insertionSort itemLE (List.insertionSort itemLE items)) ++
          lastGap g we (List.insertionSort itemLE (List.insertionSort itemLE items)) := by
    simp only [processFreeBusy]
    rw [hfilter1]
  have hbcount : (processFreeBusy items ws we g workHoursOnly workingHours tz).1.countP
      (covers t) = (List.insertionSort itemLE items).countP (coversItem t) := by
    rw [hbusy, List.countP_map]
    refine List.countP_congr ?_
    intro x hx
    obtain ⟨w1, w2, w3, _, _, _⟩ := hwfs x hx
    simp only [Function.comp, clipToWindow, covers, coversItem]
    simp only [max_eq_left w1, min_eq_left w3]
  cases items with
  | nil =>
    have h0 : processFreeBusy [] ws we g workHoursOnly workingHours tz =
        ([], [⟨ws, we⟩]) := rfl
    rw [h0]
    have hcov : covers t ⟨ws, we⟩ = true := by
      simp only [covers, Bool.and_eq_true, decide_eq_true_eq]
      omega
    simp [List.countP_cons, hcov]
  | cons a l =>
    have hnes : List.insertionSort itemLE (a :: l) ≠ [] := by
      intro h
      have hlen := hps.length_eq
      rw [h] at hlen
      simp at hlen
    have hsS : (List.insertionSort itemLE (List.insertionSort itemLE (a :: l))).Sorted itemLE :=
      List.sorted_insertionSort itemLE _
    have hpS : (List.insertionSort itemLE (List.insertionSort itemLE (a :: l))).Perm (a :: l) :=
      (List.perm_insertionSort _ _).trans hps
    have hwfS : ∀ it ∈ List.insertionSort itemLE (List.insertionSort itemLE (a :: l)),
        wfItem ws we g it := fun it hit => hwf it (hpS.mem_iff.1 hit)
    have hdisjS : (List.insertionSort itemLE (List.insertionSort itemLE (a :: l))).Pairwise
        disjointItems := by
      refine hdisj.perm hpS.symm ?_
      intro x y h
      exact Or.symm h
    have hlaidS : Laid we ws (List.insertionSort itemLE (List.insertionSort itemLE (a :: l))) := by
      refine laid_of_sorted we _ ws (le_of_lt hw) ?_ hdisjS hsS
      intro it hit
      obtain ⟨w1, w2, w3, _, _, _⟩ := hwfS it hit
      exact ⟨w1, w2, w3⟩
    rw [hbcount, hfree, if_neg (by simpa [List.isEmpty_iff] using hnes)]
    have hcount2 : (List.insertionSort itemLE (a :: l)).countP (coversItem t) =
        (List.insertionSort itemLE (List.insertionSort itemLE (a :: l))).countP
          (coversItem t) := ((List.perm_insertionSort itemLE _).countP_eq _).symm
    rw [hcount2]
    rcases hS : List.insertionSort itemLE (List.insertionSort itemLE (a :: l)) with _ | ⟨b, M⟩
    · exfalso
      have hlen := hpS.length_eq
      rw [hS] at hlen
      simp at hlen
    · rw [hS] at hlaidS hwfS
      obtain ⟨hb1, hb2, hlaid2⟩ := hlaidS
      have hpre : preGap g ws (b :: M) = if ws < b.start then [⟨ws, b.start⟩] else [] := by
        simp only [preGap, maybeGap]
        rw [roundToInterval_aligned g ws hg haw,
          roundToInterval_aligned g b.start hg (hwfS b (by simp)).2.2.2.1]
        split
        · rfl
        · rfl
      have hmid := midGaps_lastGap_eq g we hg hae M b
        (fun x hx => ⟨(hwfS x hx).2.2.2.1, (hwfS x hx).2.2.2.2.1⟩) hlaid2
      have hfree2 : preGap g ws (b :: M) ++ midGaps g (b :: M) ++ lastGap g we (b :: M) =
          gaps we ws (b :: M) := by
        rw [List.append_assoc, hmid, hpre]
        rfl
      rw [hfree2]
      exact laid_partition we (b :: M) ws t ⟨hb1, hb2, hlaid2⟩ ht1 ht2

/-- Witness for C1: one aligned one-hour busy period inside a four-hour
window; the window start is covered exactly once. -/
theorem C1_partition_witness :
    (processFreeBusy [⟨hm 1 0, hm 2 0, "busy"⟩] 0 (hm 4 0) 30 false none 0).1.countP
        (covers 0) +
      (processFreeBusy [⟨hm 1 0, hm 2 0, "busy"⟩] 0 (hm 4 0) 30 false none 0).2.countP
        (covers 0) = 1 :=
  C1_partition [⟨hm 1 0, hm 2 0, "busy"⟩] 0 (hm 4 0) 30 false none 0
    (by decide) (by decide) (by decide) (by decide) (by decide) (by decide)
    0 (by decide) (by decide)

/-- Claim C1, counterexample to the claim as stated: two overlapping
busy periods are both emitted clipped, and the instant 02:30 inside
their overlap is covered by two emitted busy intervals, so it is not
covered exactly once. -/
theorem C1_counterexample :
    (0 : Int) ≤ hm 2 30 ∧ hm 2 30 < hm 4 0 ∧
    (processFreeBusy [⟨hm 1 0, hm 3 0, "busy"⟩, ⟨hm 2 0, hm 3 20, "busy"⟩]
        0 (hm 4 0) 30 false none 0).1.countP (covers (hm 2 30)) +
      (processFreeBusy [⟨hm 1 0, hm 3 0, "busy"⟩, ⟨hm 2 0, hm 3 20, "busy"⟩]
        0 (hm 4 0) 30 false none 0).2.countP (covers (hm 2 30)) = 2 := by
  refine ⟨by decide, by decide, by decide⟩

/-- Witness for the amended C5 on the concrete ranking input. -/
theorem C5_ranking_adjacent_witness :
    List.Chain' rankedBefore (findIntersectingSlots plainInput rankUsers) :=
  C5_ranking_adjacent plainInput rankUsers
